import Mathlib

/-!
Verification of the sentiment-platform inference core
(`src/backend/main.py`, with the training-side duplicate of the text
normalizer in `src/model/train.py`).

The embedding works over the ASCII fragment of Python's text handling:
`str.lower` is modelled on `A`–`Z`, the regex classes `\s`, `\w` are
modelled by their ASCII contents.  All inputs appearing in counterexamples
and witnesses are plain ASCII, where the model agrees with Python exactly.
Floating-point values are modelled as rationals; Python's `round(x, 4)`
(round half to even) is modelled by `round4` below.
-/

namespace Sentiment

/-- ASCII content of the regex class `\s` (Python whitespace:
space, tab, newline, carriage return, vertical tab, form feed). -/
def isPySpace (c : Char) : Bool :=
  c.toNat = 32 || c.toNat = 9 || c.toNat = 10 || c.toNat = 13 || c.toNat = 11 || c.toNat = 12

/-- ASCII content of the regex class `\w` (word characters
`a`–`z`, `A`–`Z`, `0`–`9`, `_`). -/
def isWordChar (c : Char) : Bool :=
  (97 ≤ c.toNat && c.toNat ≤ 122) || (65 ≤ c.toNat && c.toNat ≤ 90) ||
    (48 ≤ c.toNat && c.toNat ≤ 57) || c.toNat = 95

/-- The character class `[a-zA-Z]` of the filtering regex. -/
def isAsciiAlpha (c : Char) : Bool :=
  (97 ≤ c.toNat && c.toNat ≤ 122) || (65 ≤ c.toNat && c.toNat ≤ 90)

/-- `a`–`z`, used to state invariants of normalized text. -/
def isLowerAlpha (c : Char) : Bool :=
  97 ≤ c.toNat && c.toNat ≤ 122

/-- ASCII `str.lower` on one character. -/
def lowerChar (c : Char) : Char :=
  if 65 ≤ c.toNat && c.toNat ≤ 90 then Char.ofNat (c.toNat + 32) else c

/-- `text.lower()` (ASCII fragment). -/
def pyLower (l : List Char) : List Char := l.map lowerChar

/-- `re.sub(r"http\S+|www\S+|https\S+", "", text)`, with explicit fuel so
that the recursion is structural (the fuel is always at least the length
of the list, so the `0` case is never reached).  Scanning left to right, a
match is `http` or `www` followed by a non-empty maximal run of
non-whitespace characters; matches are deleted.  The `https\S+`
alternative is subsumed by `http\S+` and never fires. -/
def subUrlF : Nat → List Char → List Char
  | _, [] => []
  | 0, l => l
  | fuel + 1, 'h' :: 't' :: 't' :: 'p' :: c :: rest =>
      if isPySpace c then 'h' :: subUrlF fuel ('t' :: 't' :: 'p' :: c :: rest)
      else subUrlF fuel (rest.dropWhile (fun d => !isPySpace d))
  | fuel + 1, 'w' :: 'w' :: 'w' :: c :: rest =>
      if isPySpace c then 'w' :: subUrlF fuel ('w' :: 'w' :: c :: rest)
      else subUrlF fuel (rest.dropWhile (fun d => !isPySpace d))
  | fuel + 1, c :: rest => c :: subUrlF fuel rest

/-- `re.sub(r"http\S+|www\S+|https\S+", "", text)`. -/
def subUrl (l : List Char) : List Char := subUrlF l.length l

/-- `re.sub(r"@\w+", "", text)` with structural fuel. -/
def subMentionF : Nat → List Char → List Char
  | _, [] => []
  | 0, l => l
  | fuel + 1, '@' :: c :: rest =>
      if isWordChar c then subMentionF fuel (rest.dropWhile isWordChar)
      else '@' :: subMentionF fuel (c :: rest)
  | fuel + 1, c :: rest => c :: subMentionF fuel rest

/-- `re.sub(r"@\w+", "", text)`. -/
def subMention (l : List Char) : List Char := subMentionF l.length l

/-- `re.sub(r"#\w+", "", text)` with structural fuel. -/
def subHashF : Nat → List Char → List Char
  | _, [] => []
  | 0, l => l
  | fuel + 1, '#' :: c :: rest =>
      if isWordChar c then subHashF fuel (rest.dropWhile isWordChar)
      else '#' :: subHashF fuel (c :: rest)
  | fuel + 1, c :: rest => c :: subHashF fuel rest

/-- `re.sub(r"#\w+", "", text)`. -/
def subHash (l : List Char) : List Char := subHashF l.length l

/-- `re.sub(r"[^a-zA-Z\s]", "", text)`. -/
def keepAlphaWs (l : List Char) : List Char :=
  l.filter (fun c => isAsciiAlpha c || isPySpace c)

/-- `re.sub(r"\s+", " ", text)`: each maximal run of whitespace becomes a
single space (the space is emitted at the last character of the run). -/
def collapseWs : List Char → List Char
  | [] => []
  | [c] => if isPySpace c then [' '] else [c]
  | c :: c2 :: rest =>
      if isPySpace c then
        (if isPySpace c2 then collapseWs (c2 :: rest) else ' ' :: collapseWs (c2 :: rest))
      else c :: collapseWs (c2 :: rest)

/-- `text.strip()`: drop leading and trailing whitespace. -/
def pyStrip (l : List Char) : List Char :=
  (l.dropWhile isPySpace).rdropWhile isPySpace

/-- `clean_text` from `src/backend/main.py` lines 132–140 (identical to
`src/model/train.py` lines 155–163), on character lists. -/
def cleanL (l : List Char) : List Char :=
  pyStrip (collapseWs (keepAlphaWs (subHash (subMention (subUrl (pyLower l))))))

/-- `clean_text` on strings. -/
def clean_text (s : String) : String :=
  ⟨cleanL s.data⟩

/-- Does a match of the URL regex `http\S+|www\S+|https\S+` start at the
head of `l`? -/
def urlMatchAt : List Char → Bool
  | 'h' :: 't' :: 't' :: 'p' :: c :: _ => !isPySpace c
  | 'w' :: 'w' :: 'w' :: c :: _ => !isPySpace c
  | _ => false

/-- No position of `l` matches the URL regex, i.e. `l` has no occurrence
of `http` or `www` followed by a non-whitespace character. -/
def noUrl (l : List Char) : Bool :=
  l.tails.all (fun t => !urlMatchAt t)

/-- Kernel-computable floor of a rational. -/
def rfloor (q : ℚ) : ℤ := q.num / q.den

/-- Round half to even. -/
def rhe (q : ℚ) : ℤ :=
  if q - rfloor q < 1/2 then rfloor q
  else if 1/2 < q - rfloor q then rfloor q + 1
  else if rfloor q % 2 = 0 then rfloor q else rfloor q + 1

/-- `round(x, 4)`. -/
def round4 (q : ℚ) : ℚ := (rhe (q * 10000) : ℚ) / 10000

/-- `WordScore` (line 80–84 of `src/backend/main.py`). -/
structure WordScore where
  word : String
  score : ℚ
  type : String
  deriving DecidableEq, Repr

/-- `PredictResponse` (lines 86–94), minus the wall-clock fields. -/
structure PredictResponse where
  text : String
  cleaned_text : String
  prediction : String
  confidence : ℚ
  probabilities : List (String × ℚ)
  key_words : List WordScore
  deriving DecidableEq, Repr

/-- The loaded artifacts (`MODEL`, `VECTORIZER`): the vectorizer's
vocabulary (`get_feature_names_out`), its transform producing the dense
tf-idf row for a cleaned text, the classifier's `predict_proba` row, and
the optional per-class coefficient matrix (`coef_`, `none` when
`hasattr(MODEL, "coef_")` is false). -/
structure Env where
  vocab : List String
  transform : String → List ℚ
  predictProba : List ℚ → List ℚ
  coef : Option (List (List ℚ))

/-- `LABEL_MAP = {0: "negative", 1: "positive", 2: "neutral"}` (line 25). -/
def LABEL_MAP : List (Nat × String) :=
  [(0, "negative"), (1, "positive"), (2, "neutral")]

/-- `LABEL_MAP[i]`, total with a junk default; every theorem about
inference assumes a 3-class model, so the default is never reached. -/
def labelName (i : Nat) : String := (LABEL_MAP.lookup i).getD ""

/-- `int(np.argmax(proba))` on the remainder of the list: `bv`/`bi` are
the best value and its index so far, `i` the index of the head; a later
value replaces the best only when strictly greater, so the first maximum
wins. -/
def argmaxFrom : List ℚ → ℚ → Nat → Nat → Nat
  | [], _, bi, _ => bi
  | v :: rest, bv, bi, i =>
      if bv < v then argmaxFrom rest v i (i + 1)
      else argmaxFrom rest bv bi (i + 1)

/-- `int(np.argmax(proba))`: index of the first maximal element
(`0` on the empty list, which a loaded classifier never produces). -/
def argmaxL : List ℚ → Nat
  | [] => 0
  | v :: rest => argmaxFrom rest v 0 1

/-- `features.nonzero()[1]`: ascending column indices of the non-zero
entries of the tf-idf row. -/
def featureIndices (tfidf : List ℚ) : List Nat :=
  (List.range tfidf.length).filter (fun i => tfidf.getD i 0 ≠ 0)

/-- One iteration of the key-word loop (lines 170–179): the vocabulary
word at `idx`, the net score `(pos_coef - neg_coef) * tfidf_val` with
both coefficients `0` when the model has no `coef_`, its polarity and its
rounded absolute value.  Out-of-range list accesses (which would raise in
Python) are modelled by a `0`/`""` default; every theorem that depends on
them carries the well-formedness hypotheses making them unreachable. -/
def kwEntry (vocab : List String) (tfidf : List ℚ) (coef : Option (List (List ℚ)))
    (idx : Nat) : WordScore :=
  let word := vocab.getD idx ""
  let tfidf_val := tfidf.getD idx 0
  let pos_coef : ℚ := match coef with
    | some m => (m.getD 1 []).getD idx 0
    | none => 0
  let neg_coef : ℚ := match coef with
    | some m => (m.getD 0 []).getD idx 0
    | none => 0
  let net_score := (pos_coef - neg_coef) * tfidf_val
  ⟨word, round4 |net_score|, if 0 < net_score then "positive" else "negative"⟩

/-- The key-word list before sorting, in ascending vocabulary-index order,
skipping multi-word vocabulary entries (`if " " in word: continue`).  The
vocabulary index is kept alongside each entry as ghost data so that the
tie-breaking order can be stated; the code itself only builds the
`WordScore` part. -/
def keyWordsPre (vocab : List String) (tfidf : List ℚ)
    (coef : Option (List (List ℚ))) : List (Nat × WordScore) :=
  (featureIndices tfidf).filterMap (fun i =>
    if ' ' ∈ (vocab.getD i "").data then none
    else some (i, kwEntry vocab tfidf coef i))

/-- Stable insertion for a descending sort on the score: an element moves
past another only when its score is strictly greater, which matches the
stability of Python's `list.sort(key=..., reverse=True)`. -/
def insertDesc (x : Nat × WordScore) : List (Nat × WordScore) → List (Nat × WordScore)
  | [] => [x]
  | y :: ys => if y.2.score ≤ x.2.score then x :: y :: ys else y :: insertDesc x ys

/-- Stable descending sort by score
(`key_words.sort(key=lambda x: x["score"], reverse=True)`). -/
def sortDesc : List (Nat × WordScore) → List (Nat × WordScore)
  | [] => []
  | x :: xs => insertDesc x (sortDesc xs)

/-- The `key_words` list of lines 163–181: build, sort descending by
score, truncate to 8. -/
def key_words (vocab : List String) (tfidf : List ℚ)
    (coef : Option (List (List ℚ))) : List WordScore :=
  ((sortDesc (keyWordsPre vocab tfidf coef)).take 8).map Prod.snd

/-- `VECTORIZER.transform([cleaned])`: the dense tf-idf row of the
cleaned text. -/
def featuresOf (env : Env) (text : String) : List ℚ :=
  env.transform (clean_text text)

/-- `MODEL.predict_proba(features)[0]` for a text. -/
def probaOf (env : Env) (text : String) : List ℚ :=
  env.predictProba (featuresOf env text)

/-- The pure part of `predict_sentiment` (lines 144–194): the
`PredictResponse` built for a text, independent of the history log. -/
def recOf (env : Env) (text : String) : PredictResponse :=
  let proba := probaOf env text
  let pred_idx := argmaxL proba
  let probabilities := (List.range proba.length).map
    (fun i => (labelName i, round4 (proba.getD i 0)))
  { text := text
    cleaned_text := clean_text text
    prediction := labelName pred_idx
    confidence := round4 (proba.getD pred_idx 0)
    probabilities := probabilities
    key_words := key_words env.vocab (featuresOf env text) env.coef }

/-- The single failure of `predict_sentiment` itself: the HTTP 400
"empty after preprocessing" rejection. -/
inductive InferError where
  | emptyInput
  deriving DecidableEq, Repr

/-- Lines 196–198: append the record, then `pop(0)` when the log length
exceeds 1000. -/
def appendEvict (log : List PredictResponse) (r : PredictResponse) : List PredictResponse :=
  let l := log ++ [r]
  if 1000 < l.length then l.drop 1 else l

/-- `predict_sentiment` (lines 144–200): clean, reject when the cleaned
text strips to empty, otherwise build the record and append it to the
log.  Returns the result together with the new log; the failure path
raises before any mutation, so it returns the log unchanged. -/
def predict_sentiment (env : Env) (text : String) (log : List PredictResponse) :
    Except InferError PredictResponse × List PredictResponse :=
  let cleaned := clean_text text
  if pyStrip cleaned.data = [] then (.error .emptyInput, log)
  else
    let r := recOf env text
    (.ok r, appendEvict log r)

/-- `predict_batch` (lines 223–236): run `predict_sentiment` once per
text, left to right; the first failure aborts the batch, and the log
keeps the appends made for the items already processed. -/
def predict_batch (env : Env) :
    List String → List PredictResponse →
      Except InferError (List PredictResponse) × List PredictResponse
  | [], log => (.ok [], log)
  | t :: ts, log =>
      match predict_sentiment env t log with
      | (.error e, log1) => (.error e, log1)
      | (.ok r, log1) =>
          match predict_batch env ts log1 with
          | (.error e, log2) => (.error e, log2)
          | (.ok rs, log2) => (.ok (r :: rs), log2)

/-- `compare` (lines 239–257): predict both texts in order, then
`delta[label] = round(a.probabilities[label] - b.probabilities[label], 4)`
over the labels of `result_a.probabilities`.  The Python dict access
`result_b.probabilities[label]` is modelled by a lookup with a `0`
default; under the 3-class hypothesis both maps carry the same labels and
the default is never reached. -/
def compareTexts (env : Env) (ta tb : String) (log : List PredictResponse) :
    Except InferError (PredictResponse × PredictResponse × List (String × ℚ)) ×
      List PredictResponse :=
  match predict_sentiment env ta log with
  | (.error e, log1) => (.error e, log1)
  | (.ok ra, log1) =>
      match predict_sentiment env tb log1 with
      | (.error e, log2) => (.error e, log2)
      | (.ok rb, log2) =>
          let delta := ra.probabilities.map
            (fun p => (p.1, round4 (p.2 - ((rb.probabilities.lookup p.1).getD 0))))
          (.ok (ra, rb, delta), log2)

/-- `StatsResponse` (lines 124–128). -/
structure StatsResponse where
  total_predictions : Nat
  label_distribution : List (String × Nat)
  avg_confidence : ℚ
  recent_predictions : List PredictResponse
  deriving DecidableEq, Repr

/-- `get_stats` (lines 260–282).  `PREDICTION_LOG[-10:][::-1]` is the last
ten records, most recent first.  The Python `set(labels)` iterates in an
unspecified order; it is modelled by `dedup` (first-occurrence order) —
no claim depends on the order of the distribution map. -/
def get_stats (log : List PredictResponse) : StatsResponse :=
  if log = [] then
    { total_predictions := 0
      label_distribution := []
      avg_confidence := 0
      recent_predictions := [] }
  else
    let labels := log.map (·.prediction)
    let distribution := labels.dedup.map (fun lab => (lab, labels.count lab))
    let avg_conf := (log.map (·.confidence)).sum / log.length
    { total_predictions := log.length
      label_distribution := distribution
      avg_confidence := round4 avg_conf
      recent_predictions := (log.drop (log.length - 10)).reverse }

/-- The no-two-adjacent-whitespace relation guaranteed by `collapseWs`. -/
def NoWs2 (a b : Char) : Prop := ¬(isPySpace a = true ∧ isPySpace b = true)
def ScoreIdxOrder (a b : Nat × WordScore) : Prop :=
  b.2.score < a.2.score ∨ (a.2.score = b.2.score ∧ a.1 < b.1)
def envA : Env :=
  { vocab := ["a"]
    transform := fun _ => [1]
    predictProba := fun _ => [1, 0, 0]
    coef := none }

/-! ### The claims -/

/-- C1, counterexample: normalization is not idempotent.  `"aht!tpb"`
cleans to `"ahttpb"` (the punctuation stripper runs after the URL
stripper and can create a fresh `http`-prefixed token), and cleaning that
again matches `http\S+` and leaves `"a"`. -/

example : clean_text "I love this product!" = "i love this product" := by decide
example : clean_text "!!! ### @@@ http://x.co" = "" := by decide
example : clean_text "Check https://a.b and @bob #cool stuff" = "check and stuff" := by decide
example : clean_text "aht!tpb" = "ahttpb" := by decide
example : clean_text "ahttpb" = "a" := by decide
example : noUrl (cleanL "hello world".data) = true := by decide
example : noUrl (cleanL "aht!tpb".data) = false := by decide

/-! ### Rounding

Python's `round(x, n)` rounds half to even.  `rhe` is round-half-to-even
to an integer on rationals, `round4` is `round(x, 4)`. -/

theorem rfloor_eq (q : ℚ) : rfloor q = ⌊q⌋ := Rat.floor_def.symm

theorem rhe_intCast (n : ℤ) : rhe n = n := by
  simp [rhe, rfloor_eq]

theorem rhe_neg (q : ℚ) : rhe (-q) = -rhe q := by
  rcases eq_or_lt_of_le (Int.floor_le q) with h | h
  · have hq : q = (⌊q⌋ : ℚ) := h.symm
    rw [hq, ← Int.cast_neg, rhe_intCast, rhe_intCast]
  · have hfneg : ⌊-q⌋ = -⌊q⌋ - 1 := by
      rw [Int.floor_eq_iff]
      constructor
      · push_cast
        have := Int.lt_floor_add_one q
        linarith
      · push_cast
        linarith
    have h1 : q - (⌊q⌋ : ℚ) < 1 := by
      have := Int.lt_floor_add_one q
      linarith
    unfold rhe
    rw [rfloor_eq, rfloor_eq, hfneg]
    have hrw : -q - ((-⌊q⌋ - 1 : ℤ) : ℚ) = 1 - (q - ⌊q⌋) := by push_cast; ring
    rw [hrw]
    split_ifs <;> push_cast at * <;> first
      | omega
      | linarith

theorem rhe_mono {q r : ℚ} (h : q ≤ r) : rhe q ≤ rhe r := by
  have hfl : ⌊q⌋ ≤ ⌊r⌋ := Int.floor_le_floor h
  rcases eq_or_lt_of_le hfl with heq | hlt
  · unfold rhe
    rw [rfloor_eq, rfloor_eq, ← heq]
    have hfr : q - (⌊q⌋ : ℚ) ≤ r - ⌊q⌋ := by linarith
    split_ifs <;> first
      | omega
      | linarith
  · have hq0 : rhe q ≤ ⌊q⌋ + 1 := by
      unfold rhe
      rw [rfloor_eq]
      split_ifs <;> omega
    have hr0 : ⌊r⌋ ≤ rhe r := by
      unfold rhe
      rw [rfloor_eq]
      split_ifs <;> omega
    omega

theorem rhe_nonneg {q : ℚ} (h : 0 ≤ q) : 0 ≤ rhe q := by
  have : rhe 0 ≤ rhe q := rhe_mono h
  rwa [show (0 : ℚ) = ((0 : ℤ) : ℚ) by norm_num, rhe_intCast] at this

theorem round4_neg (q : ℚ) : round4 (-q) = -round4 q := by
  simp [round4, rhe_neg, neg_div]

theorem round4_mono {q r : ℚ} (h : q ≤ r) : round4 q ≤ round4 r := by
  unfold round4
  gcongr
  exact_mod_cast rhe_mono (by linarith)

theorem round4_nonneg {q : ℚ} (h : 0 ≤ q) : 0 ≤ round4 q := by
  have h1 : (0:ℤ) ≤ rhe (q * 10000) := rhe_nonneg (by positivity)
  unfold round4
  exact div_nonneg (by exact_mod_cast h1) (by norm_num)

example : round4 (25/100000) = 2/10000 := by
  have h : rfloor ((25 : ℚ)/100000 * 10000) = 2 := by rw [rfloor_eq]; norm_num
  unfold round4 rhe
  rw [h]
  norm_num

example : round4 (35/100000) = 4/10000 := by
  have h : rfloor ((35 : ℚ)/100000 * 10000) = 3 := by rw [rfloor_eq]; norm_num
  unfold round4 rhe
  rw [h]
  norm_num

example : round4 (12345678/100000000) = 1235/10000 := by
  have h : rfloor ((12345678 : ℚ)/100000000 * 10000) = 1234 := by rw [rfloor_eq]; norm_num
  unfold round4 rhe
  rw [h]
  norm_num

/-! ### Data model

`PredictResponse` mirrors the schema in `src/backend/main.py`.  The two
wall-clock fields (`inference_time_ms`, `timestamp`) are omitted: they
measure real time, no claim depends on them, and they are not statable in
a pure embedding. -/

/-! ### Lemmas about the text normalizer -/

theorem toNat_ofNat_of_valid {n : Nat} (h : n < 55296) : (Char.ofNat n).toNat = n := by
  rw [Char.ofNat, dif_pos (Or.inl h)]
  rfl

theorem charEq_of_toNat {c d : Char} (h : c.toNat = d.toNat) : c = d := by
  apply Char.ext
  exact UInt32.toNat.inj h

theorem toNat_space : (' ' : Char).toNat = 32 := rfl

theorem lower_not_space {c : Char} (h : isLowerAlpha c = true) : isPySpace c = false := by
  simp only [isLowerAlpha, Bool.and_eq_true, decide_eq_true_eq] at h
  simp only [isPySpace, Bool.or_eq_false_iff, decide_eq_false_iff_not]
  omega

theorem space_isPySpace : isPySpace ' ' = true := by decide

theorem lowerChar_eq_self {c : Char} (h : ¬(65 ≤ c.toNat ∧ c.toNat ≤ 90)) :
    lowerChar c = c := by
  rw [lowerChar, if_neg]
  simpa using h

theorem lowerChar_not_upper (c : Char) :
    ¬(65 ≤ (lowerChar c).toNat ∧ (lowerChar c).toNat ≤ 90) := by
  rw [lowerChar]
  split
  · rename_i h
    simp only [Bool.and_eq_true, decide_eq_true_eq] at h
    have hval : c.toNat + 32 < 55296 := by
      have := c.val.toNat_lt
      omega
    rw [toNat_ofNat_of_valid hval]
    omega
  · rename_i h
    simp only [Bool.and_eq_true, decide_eq_true_eq] at h
    omega

theorem mem_pyLower_not_upper {a : Char} {l : List Char} (h : a ∈ pyLower l) :
    ¬(65 ≤ a.toNat ∧ a.toNat ≤ 90) := by
  rw [pyLower, List.mem_map] at h
  obtain ⟨b, _, rfl⟩ := h
  exact lowerChar_not_upper b

theorem pyLower_eq_self {l : List Char}
    (h : ∀ a ∈ l, ¬(65 ≤ a.toNat ∧ a.toNat ≤ 90)) : pyLower l = l := by
  rw [pyLower]
  induction l with
  | nil => rfl
  | cons c rest ih =>
      rw [List.map_cons, lowerChar_eq_self (h c (List.mem_cons_self c rest)),
        ih (fun a ha => h a (List.mem_cons_of_mem c ha))]

theorem subUrlF_sublist (fuel : Nat) (l : List Char) : List.Sublist (subUrlF fuel l) l := by
  induction fuel, l using subUrlF.induct with
  | case1 fuel => simp [subUrlF]
  | case2 l h => simp [subUrlF]
  | case3 fuel c rest h ih =>
      rw [subUrlF, if_pos h]
      exact List.Sublist.cons₂ _ ih
  | case4 fuel c rest h ih =>
      rw [subUrlF, if_neg h]
      exact ih.trans (( List.dropWhile_suffix _).sublist.trans
        (List.IsSuffix.sublist ⟨['h', 't', 't', 'p', c], rfl⟩))
  | case5 fuel c rest h ih =>
      rw [subUrlF, if_pos h]
      exact List.Sublist.cons₂ _ ih
  | case6 fuel c rest h ih =>
      rw [subUrlF, if_neg h]
      exact ih.trans (( List.dropWhile_suffix _).sublist.trans
        (List.IsSuffix.sublist ⟨['w', 'w', 'w', c], rfl⟩))
  | case7 fuel c rest h1 h2 ih =>
      rw [subUrlF]
      · exact List.Sublist.cons₂ _ ih
      · exact h1
      · exact h2

theorem subMentionF_sublist (fuel : Nat) (l : List Char) :
    List.Sublist (subMentionF fuel l) l := by
  induction fuel, l using subMentionF.induct with
  | case1 fuel => simp [subMentionF]
  | case2 l h => simp [subMentionF]
  | case3 fuel c rest h ih =>
      rw [subMentionF, if_pos h]
      exact ih.trans (( List.dropWhile_suffix _).sublist.trans
        (List.IsSuffix.sublist ⟨['@', c], rfl⟩))
  | case4 fuel c rest h ih =>
      rw [subMentionF, if_neg h]
      exact List.Sublist.cons₂ _ ih
  | case5 fuel c rest h ih =>
      rw [subMentionF]
      · exact List.Sublist.cons₂ _ ih
      · exact h

theorem subHashF_sublist (fuel : Nat) (l : List Char) :
    List.Sublist (subHashF fuel l) l := by
  induction fuel, l using subHashF.induct with
  | case1 fuel => simp [subHashF]
  | case2 l h => simp [subHashF]
  | case3 fuel c rest h ih =>
      rw [subHashF, if_pos h]
      exact ih.trans (( List.dropWhile_suffix _).sublist.trans
        (List.IsSuffix.sublist ⟨['#', c], rfl⟩))
  | case4 fuel c rest h ih =>
      rw [subHashF, if_neg h]
      exact List.Sublist.cons₂ _ ih
  | case5 fuel c rest h ih =>
      rw [subHashF]
      · exact List.Sublist.cons₂ _ ih
      · exact h

theorem noUrl_cons {a : Char} {l : List Char} :
    noUrl (a :: l) = (!urlMatchAt (a :: l) && noUrl l) := by
  rw [noUrl, noUrl, List.tails_cons, List.all_cons]

theorem subUrlF_eq_self : ∀ (fuel : Nat) (l : List Char), noUrl l = true → subUrlF fuel l = l := by
  intro fuel l
  induction fuel, l using subUrlF.induct with
  | case1 fuel => intro _; simp [subUrlF]
  | case2 l h => intro _; simp [subUrlF]
  | case3 fuel c rest h ih =>
      intro hno
      rw [noUrl_cons, Bool.and_eq_true] at hno
      rw [subUrlF, if_pos h, ih hno.2]
  | case4 fuel c rest h ih =>
      intro hno
      rw [noUrl_cons, Bool.and_eq_true] at hno
      exfalso
      have : urlMatchAt ('h' :: 't' :: 't' :: 'p' :: c :: rest) = true := by
        rw [urlMatchAt]
        simpa using h
      simp [this] at hno
  | case5 fuel c rest h ih =>
      intro hno
      rw [noUrl_cons, Bool.and_eq_true] at hno
      rw [subUrlF, if_pos h, ih hno.2]
  | case6 fuel c rest h ih =>
      intro hno
      rw [noUrl_cons, Bool.and_eq_true] at hno
      exfalso
      have : urlMatchAt ('w' :: 'w' :: 'w' :: c :: rest) = true := by
        rw [urlMatchAt]
        simpa using h
      simp [this] at hno
  | case7 fuel c rest h1 h2 ih =>
      intro hno
      rw [noUrl_cons, Bool.and_eq_true] at hno
      rw [subUrlF]
      · rw [ih hno.2]
      · exact h1
      · exact h2

theorem subUrl_eq_self {l : List Char} (h : noUrl l = true) : subUrl l = l :=
  subUrlF_eq_self l.length l h

theorem subMentionF_eq_self : ∀ (fuel : Nat) (l : List Char),
    '@' ∉ l → subMentionF fuel l = l := by
  intro fuel l
  induction fuel, l using subMentionF.induct with
  | case1 fuel => intro _; simp [subMentionF]
  | case2 l h => intro _; simp [subMentionF]
  | case3 fuel c rest h ih =>
      intro hmem
      exact absurd (List.mem_cons_self _ _) hmem
  | case4 fuel c rest h ih =>
      intro hmem
      exact absurd (List.mem_cons_self _ _) hmem
  | case5 fuel c rest h ih =>
      intro hmem
      rw [subMentionF]
      · rw [ih (fun hx => hmem (List.mem_cons_of_mem c hx))]
      · exact h

theorem subHashF_eq_self : ∀ (fuel : Nat) (l : List Char),
    '#' ∉ l → subHashF fuel l = l := by
  intro fuel l
  induction fuel, l using subHashF.induct with
  | case1 fuel => intro _; simp [subHashF]
  | case2 l h => intro _; simp [subHashF]
  | case3 fuel c rest h ih =>
      intro hmem
      exact absurd (List.mem_cons_self _ _) hmem
  | case4 fuel c rest h ih =>
      intro hmem
      exact absurd (List.mem_cons_self _ _) hmem
  | case5 fuel c rest h ih =>
      intro hmem
      rw [subHashF]
      · rw [ih (fun hx => hmem (List.mem_cons_of_mem c hx))]
      · exact h

theorem keepAlphaWs_eq_self {l : List Char}
    (h : ∀ a ∈ l, (isAsciiAlpha a || isPySpace a) = true) : keepAlphaWs l = l := by
  rw [keepAlphaWs, List.filter_eq_self]
  exact h

theorem keepAlphaWs_mem {a : Char} {l : List Char} (h : a ∈ keepAlphaWs l) :
    a ∈ l ∧ (isAsciiAlpha a || isPySpace a) = true := by
  rw [keepAlphaWs, List.mem_filter] at h
  exact h

theorem collapseWs_cons_not {c : Char} {l : List Char} (h : isPySpace c = false) :
    collapseWs (c :: l) = c :: collapseWs l := by
  cases l with
  | nil => simp [collapseWs, h]
  | cons c2 rest => simp [collapseWs, h]

theorem collapseWs_chars : ∀ {l : List Char}, ∀ a ∈ collapseWs l,
    a = ' ' ∨ (a ∈ l ∧ isPySpace a = false) := by
  intro l
  induction l using collapseWs.induct with
  | case1 => intro a ha; simp [collapseWs] at ha
  | case2 c h =>
      intro a ha
      simp only [collapseWs, if_pos h] at ha
      exact Or.inl (by simpa using ha)
  | case3 c h =>
      intro a ha
      simp only [collapseWs, if_neg h] at ha
      have : a = c := by simpa using ha
      subst this
      exact Or.inr ⟨List.mem_singleton.mpr rfl, by simpa using h⟩
  | case4 c c2 rest h h2 ih =>
      intro a ha
      simp only [collapseWs, if_pos h, if_pos h2] at ha
      rcases ih a ha with h3 | h3
      · exact Or.inl h3
      · exact Or.inr ⟨List.mem_cons_of_mem c h3.1, h3.2⟩
  | case5 c c2 rest h h2 ih =>
      intro a ha
      simp only [collapseWs, if_pos h, if_neg h2] at ha
      rcases List.mem_cons.mp ha with h3 | h3
      · exact Or.inl h3
      · rcases ih a h3 with h4 | h4
        · exact Or.inl h4
        · exact Or.inr ⟨List.mem_cons_of_mem c h4.1, h4.2⟩
  | case6 c c2 rest h ih =>
      intro a ha
      rw [collapseWs_cons_not (by simpa using h)] at ha
      rcases List.mem_cons.mp ha with h3 | h3
      · subst h3
        exact Or.inr ⟨List.mem_cons_self _ _, by simpa using h⟩
      · rcases ih a h3 with h4 | h4
        · exact Or.inl h4
        · exact Or.inr ⟨List.mem_cons_of_mem c h4.1, h4.2⟩

theorem collapseWs_chain : ∀ (l : List Char), (collapseWs l).Chain' NoWs2 := by
  intro l
  induction l using collapseWs.induct with
  | case1 => simp [collapseWs]
  | case2 c h => simp [collapseWs, if_pos h]
  | case3 c h => simp [collapseWs, if_neg h]
  | case4 c c2 rest h h2 ih =>
      simp only [collapseWs, if_pos h, if_pos h2]
      exact ih
  | case5 c c2 rest h h2 ih =>
      have hh2 : isPySpace c2 = false := by simpa using h2
      simp only [collapseWs, if_pos h, if_neg h2]
      rw [collapseWs_cons_not hh2] at ih ⊢
      rw [List.chain'_cons]
      refine ⟨fun hcon => ?_, ih⟩
      rw [hh2] at hcon
      exact Bool.false_ne_true hcon.2
  | case6 c c2 rest h ih =>
      have hh : isPySpace c = false := by simpa using h
      rw [collapseWs_cons_not hh]
      rw [List.chain'_cons']
      refine ⟨fun b _ hcon => ?_, ih⟩
      rw [hh] at hcon
      exact Bool.false_ne_true hcon.1

theorem collapseWs_eq_self : ∀ {l : List Char},
    (∀ a ∈ l, isLowerAlpha a = true ∨ a = ' ') → l.Chain' NoWs2 → collapseWs l = l := by
  intro l
  induction l using collapseWs.induct with
  | case1 => intro _ _; rfl
  | case2 c h =>
      intro hc _
      have hcs : c = ' ' := by
        rcases hc c (List.mem_cons_self _ _) with h1 | h1
        · rw [lower_not_space h1] at h
          exact (Bool.false_ne_true h).elim
        · exact h1
      simp [collapseWs, if_pos h, hcs]
  | case3 c h =>
      intro _ _
      simp [collapseWs, if_neg h]
  | case4 c c2 rest h h2 ih =>
      intro hc hch
      exact absurd ⟨h, h2⟩ (List.chain'_cons.mp hch).1
  | case5 c c2 rest h h2 ih =>
      intro hc hch
      have hcs : c = ' ' := by
        rcases hc c (List.mem_cons_self _ _) with h1 | h1
        · rw [lower_not_space h1] at h
          exact (Bool.false_ne_true h).elim
        · exact h1
      have htail := ih (fun a ha => hc a (List.mem_cons_of_mem c ha)) (List.Chain'.tail hch)
      simp only [collapseWs, if_pos h, if_neg h2, htail, hcs]
      split <;> rfl
  | case6 c c2 rest h ih =>
      intro hc hch
      have htail := ih (fun a ha => hc a (List.mem_cons_of_mem c ha)) (List.Chain'.tail hch)
      rw [collapseWs_cons_not (by simpa using h), htail]

theorem pyStrip_sublist (l : List Char) : List.Sublist (pyStrip l) l := by
  rw [pyStrip]
  exact ( List.rdropWhile_prefix _ _).sublist.trans ( List.dropWhile_suffix _).sublist

theorem pyStrip_chain {l : List Char} (h : l.Chain' NoWs2) : (pyStrip l).Chain' NoWs2 := by
  rw [pyStrip]
  exact List.Chain'.prefix ( List.Chain'.suffix h ( List.dropWhile_suffix _))
    ( List.rdropWhile_prefix _ _)

theorem dropWhile_head_false {p : Char → Bool} :
    ∀ {l a rest}, List.dropWhile p l = a :: rest → p a = false := by
  intro l
  induction l with
  | nil => intro a rest h; simp at h
  | cons c tl ih =>
      intro a rest h
      rw [List.dropWhile_cons] at h
      split at h
      · exact ih h
      · rename_i hc
        cases h
        simpa using hc

theorem pyStrip_idem (l : List Char) : pyStrip (pyStrip l) = pyStrip l := by
  rw [pyStrip, pyStrip]
  have hdw : List.dropWhile isPySpace
      (List.rdropWhile isPySpace (List.dropWhile isPySpace l)) =
      List.rdropWhile isPySpace (List.dropWhile isPySpace l) := by
    cases hk : List.rdropWhile isPySpace (List.dropWhile isPySpace l) with
    | nil => simp
    | cons a rest =>
        have hpre := List.rdropWhile_prefix isPySpace (List.dropWhile isPySpace l)
        rw [hk] at hpre
        obtain ⟨t, ht⟩ := hpre
        have hfa : isPySpace a = false := dropWhile_head_false ht.symm
        simp [List.dropWhile_cons, hfa]
  rw [hdw, List.rdropWhile_idempotent]

theorem cleanL_chars {l : List Char} : ∀ a ∈ cleanL l, isLowerAlpha a = true ∨ a = ' ' := by
  intro a ha
  rw [cleanL] at ha
  have ha2 := (pyStrip_sublist _).subset ha
  rcases collapseWs_chars a ha2 with h | h
  · exact Or.inr h
  · left
    have hk := keepAlphaWs_mem h.1
    have hm : a ∈ pyLower l :=
      (subUrlF_sublist _ _).subset
        ((subMentionF_sublist _ _).subset ((subHashF_sublist _ _).subset hk.1))
    have hup := mem_pyLower_not_upper hm
    have := hk.2
    rw [h.2] at this
    simp only [Bool.or_false, isAsciiAlpha, isLowerAlpha] at this ⊢
    simp only [Bool.or_eq_true, Bool.and_eq_true, decide_eq_true_eq] at this
    simp only [Bool.and_eq_true, decide_eq_true_eq]
    omega

theorem cleanL_chain (l : List Char) : (cleanL l).Chain' NoWs2 := by
  rw [cleanL]
  exact pyStrip_chain (collapseWs_chain _)

theorem pyStrip_cleanL (l : List Char) : pyStrip (cleanL l) = cleanL l := by
  rw [cleanL, pyStrip_idem]

theorem subMention_eq_self {l : List Char} (h : '@' ∉ l) : subMention l = l :=
  subMentionF_eq_self l.length l h

theorem subHash_eq_self {l : List Char} (h : '#' ∉ l) : subHash l = l :=
  subHashF_eq_self l.length l h

theorem cleanL_idem {l : List Char} (h : noUrl (cleanL l) = true) :
    cleanL (cleanL l) = cleanL l := by
  have hchars := @cleanL_chars l
  have hlow : pyLower (cleanL l) = cleanL l := by
    apply pyLower_eq_self
    intro a ha
    rcases hchars a ha with h1 | h1
    · simp only [isLowerAlpha, Bool.and_eq_true, decide_eq_true_eq] at h1
      omega
    · rw [h1, toNat_space]
      omega
  have hurl : subUrl (cleanL l) = cleanL l := subUrl_eq_self h
  have hmen : subMention (cleanL l) = cleanL l := by
    apply subMention_eq_self
    intro hmem
    rcases hchars _ hmem with h1 | h1
    · simp only [isLowerAlpha, Bool.and_eq_true, decide_eq_true_eq] at h1
      revert h1
      decide
    · revert h1
      decide
  have hhash : subHash (cleanL l) = cleanL l := by
    apply subHash_eq_self
    intro hmem
    rcases hchars _ hmem with h1 | h1
    · simp only [isLowerAlpha, Bool.and_eq_true, decide_eq_true_eq] at h1
      revert h1
      decide
    · revert h1
      decide
  have hkeep : keepAlphaWs (cleanL l) = cleanL l := by
    apply keepAlphaWs_eq_self
    intro a ha
    rcases hchars a ha with h1 | h1
    · simp only [isAsciiAlpha, isLowerAlpha, Bool.and_eq_true, decide_eq_true_eq,
        Bool.or_eq_true] at h1 ⊢
      omega
    · rw [h1]
      decide
  have hcol : collapseWs (cleanL l) = cleanL l :=
    collapseWs_eq_self hchars (cleanL_chain l)
  conv_lhs => rw [cleanL, hlow]
  rw [hurl, hmen, hhash, hkeep, hcol, pyStrip_cleanL]

/-! ### Lemmas about argmax -/

theorem argmaxFrom_spec : ∀ (rest : List ℚ) (bv : ℚ) (bi i : Nat),
    (argmaxFrom rest bv bi i = bi ∧ ∀ j < rest.length, rest.getD j 0 ≤ bv) ∨
    (∃ j, j < rest.length ∧ argmaxFrom rest bv bi i = i + j ∧ bv < rest.getD j 0 ∧
      (∀ j2 < rest.length, rest.getD j2 0 ≤ rest.getD j 0) ∧
      (∀ j2 < j, rest.getD j2 0 < rest.getD j 0)) := by
  intro rest
  induction rest with
  | nil =>
      intro bv bi i
      left
      exact ⟨rfl, by simp⟩
  | cons v tl ih =>
      intro bv bi i
      rw [argmaxFrom]
      by_cases hv : bv < v
      · rw [if_pos hv]
        right
        rcases ih v i (i + 1) with ⟨heq, hle⟩ | ⟨j, hj, heq, hlt, hle, hstr⟩
        · refine ⟨0, by simp, by omega, by simpa using hv, ?_, by omega⟩
          intro j2 hj2
          rcases j2 with _ | k
          · simp
          · simp only [List.getD_cons_succ, List.getD_cons_zero]
            exact hle k (by simpa using hj2)
        · refine ⟨j + 1, by simpa using hj, by omega, ?_, ?_, ?_⟩
          · simp only [List.getD_cons_succ]
            exact hv.trans hlt
          · intro j2 hj2
            rcases j2 with _ | k
            · simp only [List.getD_cons_zero, List.getD_cons_succ]
              exact le_of_lt hlt
            · simp only [List.getD_cons_succ]
              exact hle k (by simpa using hj2)
          · intro j2 hj2
            rcases j2 with _ | k
            · simp only [List.getD_cons_zero, List.getD_cons_succ]
              exact hlt
            · simp only [List.getD_cons_succ]
              exact hstr k (by omega)
      · rw [if_neg hv]
        push_neg at hv
        rcases ih bv bi (i + 1) with ⟨heq, hle⟩ | ⟨j, hj, heq, hlt, hle, hstr⟩
        · left
          refine ⟨heq, ?_⟩
          intro j2 hj2
          rcases j2 with _ | k
          · simpa using hv
          · simp only [List.getD_cons_succ]
            exact hle k (by simpa using hj2)
        · right
          refine ⟨j + 1, by simpa using hj, by omega, ?_, ?_, ?_⟩
          · simp only [List.getD_cons_succ]
            exact hlt
          · intro j2 hj2
            rcases j2 with _ | k
            · simp only [List.getD_cons_zero, List.getD_cons_succ]
              exact hv.trans (le_of_lt hlt)
            · simp only [List.getD_cons_succ]
              exact hle k (by simpa using hj2)
          · intro j2 hj2
            rcases j2 with _ | k
            · simp only [List.getD_cons_zero, List.getD_cons_succ]
              exact lt_of_le_of_lt hv hlt
            · simp only [List.getD_cons_succ]
              exact hstr k (by omega)

theorem argmaxL_spec (l : List ℚ) (hl : l ≠ []) :
    argmaxL l < l.length ∧
    (∀ j < l.length, l.getD j 0 ≤ l.getD (argmaxL l) 0) ∧
    (∀ j < argmaxL l, l.getD j 0 < l.getD (argmaxL l) 0) := by
  rcases l with _ | ⟨v, rest⟩
  · exact absurd rfl hl
  · rw [argmaxL]
    rcases argmaxFrom_spec rest v 0 1 with ⟨heq, hle⟩ | ⟨j, hj, heq, hlt, hle, hstr⟩
    · rw [heq]
      refine ⟨by simp, ?_, by omega⟩
      intro j2 hj2
      rcases j2 with _ | k
      · simp
      · simp only [List.getD_cons_succ, List.getD_cons_zero]
        exact hle k (by simpa using hj2)
    · rw [heq]
      refine ⟨by simp; omega, ?_, ?_⟩
      · intro j2 hj2
        have h1j : (1 + j : Nat) = j + 1 := by omega
        rw [h1j]
        rcases j2 with _ | k
        · simp only [List.getD_cons_zero, List.getD_cons_succ]
          exact le_of_lt hlt
        · simp only [List.getD_cons_succ]
          exact hle k (by simpa using hj2)
      · intro j2 hj2
        have h1j : (1 + j : Nat) = j + 1 := by omega
        rw [h1j] at hj2 ⊢
        rcases j2 with _ | k
        · simp only [List.getD_cons_zero, List.getD_cons_succ]
          exact hlt
        · simp only [List.getD_cons_succ]
          exact hstr k (by omega)

/-! ### Lemmas about the attribution sort -/

/-- Descending score order with ties broken by ascending vocabulary
index. -/

theorem insertDesc_perm (x : Nat × WordScore) (l : List (Nat × WordScore)) :
    List.Perm (insertDesc x l) (x :: l) := by
  induction l with
  | nil => simp [insertDesc]
  | cons y ys ih =>
      rw [insertDesc]
      split
      · exact List.Perm.refl _
      · exact (List.Perm.cons y ih).trans (List.Perm.swap x y ys)

theorem sortDesc_perm (l : List (Nat × WordScore)) : List.Perm (sortDesc l) l := by
  induction l with
  | nil => simp [sortDesc]
  | cons x xs ih =>
      rw [sortDesc]
      exact (insertDesc_perm x (sortDesc xs)).trans (List.Perm.cons x ih)

theorem insertDesc_pairwise {x : Nat × WordScore} {l : List (Nat × WordScore)}
    (hl : l.Pairwise ScoreIdxOrder) (hx : ∀ y ∈ l, x.1 < y.1) :
    (insertDesc x l).Pairwise ScoreIdxOrder := by
  induction l with
  | nil => simp [insertDesc, ScoreIdxOrder]
  | cons y ys ih =>
      rw [insertDesc]
      split
      · rename_i hle
        rw [List.pairwise_cons]
        refine ⟨?_, hl⟩
        intro z hz
        rcases List.mem_cons.mp hz with rfl | hz2
        · rcases lt_or_eq_of_le hle with h1 | h1
          · exact Or.inl h1
          · exact Or.inr ⟨h1.symm, hx z (List.mem_cons_self _ _)⟩
        · have hyz := (List.pairwise_cons.mp hl).1 z hz2
          have hzy : z.2.score ≤ y.2.score := by
            rcases hyz with h2 | h2
            · exact le_of_lt h2
            · exact le_of_eq h2.1.symm
          rcases lt_or_eq_of_le (hzy.trans hle) with h1 | h1
          · exact Or.inl h1
          · exact Or.inr ⟨h1.symm, hx z (List.mem_cons_of_mem y hz2)⟩
      · rename_i hgt
        push_neg at hgt
        rw [List.pairwise_cons]
        constructor
        · intro z hz
          have hz2 := (insertDesc_perm x ys).mem_iff.mp hz
          rcases List.mem_cons.mp hz2 with rfl | hz3
          · exact Or.inl hgt
          · exact (List.pairwise_cons.mp hl).1 z hz3
        · exact ih (List.pairwise_cons.mp hl).2 (fun z hz => hx z (List.mem_cons_of_mem y hz))

theorem sortDesc_pairwise {l : List (Nat × WordScore)}
    (h : l.Pairwise (fun a b => a.1 < b.1)) :
    (sortDesc l).Pairwise ScoreIdxOrder := by
  induction l with
  | nil => simp [sortDesc]
  | cons x xs ih =>
      rw [sortDesc]
      have hx : ∀ y ∈ sortDesc xs, x.1 < y.1 := by
        intro y hy
        exact (List.pairwise_cons.mp h).1 y ((sortDesc_perm xs).mem_iff.mp hy)
      exact insertDesc_pairwise (ih (List.pairwise_cons.mp h).2) hx

theorem keyWordsPre_pairwise_idx (vocab : List String) (tfidf : List ℚ)
    (coef : Option (List (List ℚ))) :
    (keyWordsPre vocab tfidf coef).Pairwise (fun a b => a.1 < b.1) := by
  rw [keyWordsPre]
  rw [List.pairwise_filterMap]
  have hrange : (featureIndices tfidf).Pairwise (· < ·) :=
    (List.pairwise_lt_range _).sublist (List.filter_sublist _)
  refine hrange.imp_of_mem ?_
  intro a b _ _ hab
  intro x hx y hy
  split at hx
  · cases hx
  · cases hx
    split at hy
    · cases hy
    · cases hy
      simpa using hab

theorem keyWordsPre_mem {vocab : List String} {tfidf : List ℚ}
    {coef : Option (List (List ℚ))} {p : Nat × WordScore}
    (hp : p ∈ keyWordsPre vocab tfidf coef) :
    p.2 = kwEntry vocab tfidf coef p.1 ∧ ' ' ∉ (vocab.getD p.1 "").data := by
  rw [keyWordsPre, List.mem_filterMap] at hp
  obtain ⟨i, _, hi⟩ := hp
  split at hi
  · cases hi
  · rename_i hsp
    cases hi
    exact ⟨rfl, hsp⟩

/-! ### Lemmas about the attribution list -/

theorem key_words_mem {vocab : List String} {tfidf : List ℚ}
    {coef : Option (List (List ℚ))} {ws : WordScore}
    (h : ws ∈ key_words vocab tfidf coef) :
    ∃ i, ws = kwEntry vocab tfidf coef i ∧ ' ' ∉ (vocab.getD i "").data := by
  rw [key_words, List.mem_map] at h
  obtain ⟨p, hp, rfl⟩ := h
  have hp2 : p ∈ sortDesc (keyWordsPre vocab tfidf coef) := (List.take_subset 8 _) hp
  have hp3 : p ∈ keyWordsPre vocab tfidf coef := (sortDesc_perm _).mem_iff.mp hp2
  have := keyWordsPre_mem hp3
  exact ⟨p.1, this.1, this.2⟩

theorem kwEntry_score_nonneg (vocab : List String) (tfidf : List ℚ)
    (coef : Option (List (List ℚ))) (i : Nat) :
    0 ≤ (kwEntry vocab tfidf coef i).score :=
  round4_nonneg (abs_nonneg _)

theorem kwEntry_word (vocab : List String) (tfidf : List ℚ)
    (coef : Option (List (List ℚ))) (i : Nat) :
    (kwEntry vocab tfidf coef i).word = vocab.getD i "" := rfl

theorem key_words_length (vocab : List String) (tfidf : List ℚ)
    (coef : Option (List (List ℚ))) : (key_words vocab tfidf coef).length ≤ 8 := by
  rw [key_words, List.length_map]
  exact List.length_take_le 8 _

theorem key_words_sorted (vocab : List String) (tfidf : List ℚ)
    (coef : Option (List (List ℚ))) :
    (sortDesc (keyWordsPre vocab tfidf coef)).Pairwise ScoreIdxOrder :=
  sortDesc_pairwise (keyWordsPre_pairwise_idx vocab tfidf coef)

theorem key_words_sorted_scores (vocab : List String) (tfidf : List ℚ)
    (coef : Option (List (List ℚ))) :
    (key_words vocab tfidf coef).Pairwise (fun a b => b.score ≤ a.score) := by
  rw [key_words]
  refine List.Pairwise.map _ ?_
    ((key_words_sorted vocab tfidf coef).sublist (List.take_sublist 8 _))
  intro a b hab
  rcases hab with h | h
  · exact le_of_lt h
  · exact le_of_eq h.1.symm

/-! ### Lemmas about the orchestrator -/

theorem clean_text_data (s : String) : (clean_text s).data = cleanL s.data := rfl

theorem predict_sentiment_empty {env : Env} {t : String} {log : List PredictResponse}
    (h : cleanL t.data = []) :
    predict_sentiment env t log = (.error .emptyInput, log) := by
  have hc : pyStrip (clean_text t).data = [] := by
    rw [clean_text_data, h]
    simp [pyStrip]
  simp only [predict_sentiment]
  rw [if_pos hc]

theorem predict_sentiment_ok {env : Env} {t : String} {log : List PredictResponse}
    (h : cleanL t.data ≠ []) :
    predict_sentiment env t log = (.ok (recOf env t), appendEvict log (recOf env t)) := by
  have hc : pyStrip (clean_text t).data ≠ [] := by
    rw [clean_text_data, pyStrip_cleanL]
    exact h
  simp only [predict_sentiment]
  rw [if_neg hc]

theorem appendEvict_eq {log : List PredictResponse} (r : PredictResponse)
    (h : log.length ≤ 1000) :
    appendEvict log r = (log ++ [r]).drop (log.length + 1 - 1000) := by
  rw [appendEvict]
  simp only [List.length_append, List.length_cons, List.length_nil]
  split
  · rename_i h1
    have h2 : log.length + 1 - 1000 = 1 := by omega
    rw [h2]
  · rename_i h1
    rw [Nat.sub_eq_zero_of_le (by omega), List.drop_zero]

theorem appendEvict_length {log : List PredictResponse} (r : PredictResponse)
    (h : log.length ≤ 1000) :
    (appendEvict log r).length = min (log.length + 1) 1000 := by
  rw [appendEvict_eq r h, List.length_drop, List.length_append]
  simp only [List.length_cons, List.length_nil]
  omega

theorem foldl_appendEvict : ∀ (rs log : List PredictResponse),
    log.length ≤ 1000 →
    rs.foldl appendEvict log = (log ++ rs).drop (log.length + rs.length - 1000) := by
  intro rs
  induction rs with
  | nil =>
      intro log h
      simp only [List.foldl_nil, List.length_nil, Nat.add_zero, List.append_nil]
      rw [Nat.sub_eq_zero_of_le h, List.drop_zero]
  | cons r rest ih =>
      intro log h
      rw [List.foldl_cons, appendEvict_eq r h]
      rw [ih _ (by
        rw [List.length_drop]
        simp only [List.length_append, List.length_cons, List.length_nil]
        omega)]
      rw [List.length_drop]
      rw [← List.drop_append_of_le_length (by
        simp only [List.length_append, List.length_cons, List.length_nil]
        omega)]
      rw [List.drop_drop]
      have harr : (log ++ [r]) ++ rest = log ++ r :: rest := by
        rw [List.append_assoc, List.singleton_append]
      rw [harr]
      refine congrArg (fun n => List.drop n (log ++ r :: rest)) ?_
      simp only [List.length_append, List.length_cons, List.length_nil]
      omega

theorem foldl_appendEvict_nil (rs : List PredictResponse) :
    rs.foldl appendEvict [] = rs.drop (rs.length - 1000) := by
  have := foldl_appendEvict rs [] (by simp)
  simpa using this

theorem predict_batch_all_ok (env : Env) : ∀ (texts : List String)
    (log : List PredictResponse), (∀ t ∈ texts, cleanL t.data ≠ []) →
    predict_batch env texts log =
      (.ok (texts.map (recOf env)), (texts.map (recOf env)).foldl appendEvict log) := by
  intro texts
  induction texts with
  | nil =>
      intro log _
      simp [predict_batch]
  | cons t ts ih =>
      intro log h
      rw [predict_batch, predict_sentiment_ok (h t (List.mem_cons_self _ _))]
      dsimp only
      rw [ih _ (fun x hx => h x (List.mem_cons_of_mem t hx))]
      simp

theorem predict_batch_err (env : Env) (bad : String) (rest : List String) :
    ∀ (pre : List String) (log : List PredictResponse),
    (∀ t ∈ pre, cleanL t.data ≠ []) → cleanL bad.data = [] →
    predict_batch env (pre ++ bad :: rest) log =
      (.error .emptyInput, (pre.map (recOf env)).foldl appendEvict log) := by
  intro pre
  induction pre with
  | nil =>
      intro log _ hbad
      rw [List.nil_append, predict_batch, predict_sentiment_empty hbad]
      simp
  | cons t ts ih =>
      intro log h hbad
      rw [List.cons_append, predict_batch,
        predict_sentiment_ok (h t (List.mem_cons_self _ _))]
      dsimp only
      rw [ih _ (fun x hx => h x (List.mem_cons_of_mem t hx)) hbad]
      simp

theorem compareTexts_ok {env : Env} {ta tb : String} {log : List PredictResponse}
    (ha : cleanL ta.data ≠ []) (hb : cleanL tb.data ≠ []) :
    compareTexts env ta tb log =
      (.ok (recOf env ta, recOf env tb, (recOf env ta).probabilities.map
        (fun p => (p.1, round4 (p.2 - (((recOf env tb).probabilities.lookup p.1).getD 0))))),
       appendEvict (appendEvict log (recOf env ta)) (recOf env tb)) := by
  rw [compareTexts, predict_sentiment_ok ha]
  dsimp only
  rw [predict_sentiment_ok hb]

theorem recOf_probabilities {env : Env} {t : String} (h3 : (probaOf env t).length = 3) :
    (recOf env t).probabilities =
      [("negative", round4 ((probaOf env t).getD 0 0)),
       ("positive", round4 ((probaOf env t).getD 1 0)),
       ("neutral", round4 ((probaOf env t).getD 2 0))] := by
  simp only [recOf, h3]
  rfl

theorem recOf_prediction (env : Env) (t : String) :
    (recOf env t).prediction = labelName (argmaxL (probaOf env t)) := rfl

theorem recOf_confidence (env : Env) (t : String) :
    (recOf env t).confidence = round4 ((probaOf env t).getD (argmaxL (probaOf env t)) 0) := rfl

theorem recOf_key_words (env : Env) (t : String) :
    (recOf env t).key_words = key_words env.vocab (featuresOf env t) env.coef := rfl

/-! ### Auxiliary facts for the claims -/

theorem round4_sub_neg (x y : ℚ) : round4 (y - x) = -round4 (x - y) := by
  rw [show y - x = -(x - y) from by ring, round4_neg]

theorem round4_zero : round4 0 = 0 := by
  rw [round4, zero_mul]
  rw [show (0 : ℚ) = ((0 : ℤ) : ℚ) by norm_num, rhe_intCast]
  norm_num

/-- A concrete loaded model used by the witnesses: one-word vocabulary,
constant tf-idf row `[1]`, constant probability row `[1, 0, 0]`, no
linear coefficients. -/
theorem c1_counterexample :
    ¬ (clean_text (clean_text "aht!tpb") = clean_text "aht!tpb") := by decide

/-- C1, amended: `clean_text` is idempotent on every input whose cleaned
form contains no occurrence of `http` or `www` followed by a
non-whitespace character (i.e. no position of the cleaned text matches
the URL regex). -/
theorem c1_normalize_idempotent (s : String) (h : noUrl (cleanL s.data) = true) :
    clean_text (clean_text s) = clean_text s :=
  congrArg String.mk (cleanL_idem h)

theorem c1_witness :
    noUrl (cleanL "hello world".data) = true ∧
      clean_text (clean_text "hello world") = clean_text "hello world" :=
  ⟨by decide, c1_normalize_idempotent "hello world" (by decide)⟩

/-- C2, counterexample: with a non-empty term vector (`[1]` over the
one-word vocabulary `["good"]`) and a classifier without `coef_`
(`coef = none`), the attribution step does not return the empty list — it
returns a placeholder entry with both coefficients defaulted to `0`. -/
theorem c2_counterexample : key_words ["good"] [(1 : ℚ)] none ≠ [] := by decide

/-- C2, amended: when the classifier exposes no `coef_`, the attribution
step still emits one entry per single-word term of the vector, each with
score `0.0` and polarity `"negative"` (both coefficients default to `0`);
in particular the list is non-empty whenever some single-word vocabulary
term has non-zero weight, rather than empty as the spec states. -/
theorem c2_no_coef_placeholder (vocab : List String) (tfidf : List ℚ) :
    (∀ ws ∈ key_words vocab tfidf none, ws.score = 0 ∧ ws.type = "negative") ∧
    ((∃ i, i < tfidf.length ∧ tfidf.getD i 0 ≠ 0 ∧ ' ' ∉ (vocab.getD i "").data) →
      key_words vocab tfidf none ≠ []) := by
  constructor
  · intro ws hws
    obtain ⟨i, rfl, _⟩ := key_words_mem hws
    constructor
    · show round4 |((0 : ℚ) - 0) * tfidf.getD i 0| = 0
      rw [sub_self, zero_mul, abs_zero, round4_zero]
    · show (if (0 : ℚ) < ((0 : ℚ) - 0) * tfidf.getD i 0 then "positive" else "negative") =
        "negative"
      rw [if_neg]
      rw [sub_self, zero_mul]
      exact lt_irrefl 0
  · rintro ⟨i, hi, hnz, hword⟩
    have hmem : (i, kwEntry vocab tfidf none i) ∈ keyWordsPre vocab tfidf none := by
      rw [keyWordsPre, List.mem_filterMap]
      refine ⟨i, ?_, ?_⟩
      · rw [featureIndices, List.mem_filter]
        exact ⟨List.mem_range.mpr hi, by simpa using hnz⟩
      · rw [if_neg hword]
    intro hc
    have hlen : (key_words vocab tfidf none).length = 0 := by rw [hc]; rfl
    rw [key_words, List.length_map, List.length_take,
      (sortDesc_perm _).length_eq] at hlen
    have hpos : 0 < (keyWordsPre vocab tfidf none).length :=
      List.length_pos.mpr (List.ne_nil_of_mem hmem)
    omega

theorem c2_witness :
    (∀ ws ∈ key_words ["good"] [(1 : ℚ)] none, ws.score = 0 ∧ ws.type = "negative") ∧
      key_words ["good"] [(1 : ℚ)] none ≠ [] := by
  refine ⟨(c2_no_coef_placeholder ["good"] [1]).1, ?_⟩
  exact (c2_no_coef_placeholder ["good"] [1]).2 ⟨0, by decide, by decide, by decide⟩

/-- C3: `predict_sentiment` fails with the empty-input error exactly when
the cleaned text is empty, leaving the history log unchanged; on every
input with non-empty cleaned text it succeeds and performs exactly one
append (followed by the capacity eviction of `appendEvict`). -/
theorem c3_empty_input_no_append (env : Env) (t : String) (log : List PredictResponse) :
    (cleanL t.data = [] →
      predict_sentiment env t log = (.error .emptyInput, log)) ∧
    (cleanL t.data ≠ [] →
      predict_sentiment env t log =
        (.ok (recOf env t), appendEvict log (recOf env t)) ∧
      appendEvict log (recOf env t) = (log ++ [recOf env t]).drop
        (if 1000 < log.length + 1 then 1 else 0)) := by
  constructor
  · intro h
    exact predict_sentiment_empty h
  · intro h
    refine ⟨predict_sentiment_ok h, ?_⟩
    rw [appendEvict]
    simp only [List.length_append, List.length_cons, List.length_nil, Nat.zero_add]
    split
    · rfl
    · rw [List.drop_zero]

theorem c3_witness :
    (cleanL ("!!! ### @@@ http://x.co" : String).data = [] ∧
      predict_sentiment envA "!!! ### @@@ http://x.co" [] =
        (.error .emptyInput, [])) ∧
    (cleanL ("I love this product!" : String).data ≠ [] ∧
      predict_sentiment envA "I love this product!" [] =
        (.ok (recOf envA "I love this product!"),
          appendEvict [] (recOf envA "I love this product!"))) := by
  refine ⟨⟨by decide, ?_⟩, ⟨by decide, ?_⟩⟩
  · exact (c3_empty_input_no_append envA "!!! ### @@@ http://x.co" []).1 (by decide)
  · exact ((c3_empty_input_no_append envA "I love this product!" []).2 (by decide)).1

/-- C4: starting from an empty history, a run of successful inferences
leaves the last `min n 1000` records in order: the log never exceeds 1000
entries, and after 1001 successful inferences the first record has been
evicted, the length is exactly 1000, and the order of the rest is
preserved. -/
theorem c4_capacity (env : Env) (texts : List String)
    (h : ∀ t ∈ texts, cleanL t.data ≠ []) :
    (predict_batch env texts []).2 =
      (texts.map (recOf env)).drop (texts.length - 1000) ∧
    (predict_batch env texts []).2.length = min texts.length 1000 ∧
    (texts.length = 1001 →
      (predict_batch env texts []).2 = (texts.map (recOf env)).drop 1 ∧
      (predict_batch env texts []).2.length = 1000) := by
  have hb := predict_batch_all_ok env texts [] h
  have hlog : (predict_batch env texts []).2 =
      (texts.map (recOf env)).drop (texts.length - 1000) := by
    rw [hb]
    dsimp only
    rw [foldl_appendEvict_nil, List.length_map]
  refine ⟨hlog, ?_, ?_⟩
  · rw [hlog, List.length_drop, List.length_map]
    omega
  · intro h1001
    constructor
    · rw [hlog, h1001]
    · rw [hlog, List.length_drop, List.length_map, h1001]

theorem c4_witness :
    (predict_batch envA (List.replicate 1001 "a") []).2 =
      ((List.replicate 1001 "a").map (recOf envA)).drop 1 ∧
    (predict_batch envA (List.replicate 1001 "a") []).2.length = 1000 := by
  have h := c4_capacity envA (List.replicate 1001 "a")
    (by
      intro t ht
      rw [List.eq_of_mem_replicate ht]
      decide)
  exact h.2.2 (by rw [List.length_replicate])

/-- C5: the predicted label is `LABEL_MAP` at the argmax of the
probability row, the argmax is the first (lowest-index) maximum, and the
record's confidence is the rounded probability of the predicted label,
which is also the maximum entry of the probabilities map. -/
theorem c5_argmax_prediction (env : Env) (t : String)
    (h3 : (probaOf env t).length = 3) :
    (recOf env t).prediction = labelName (argmaxL (probaOf env t)) ∧
    argmaxL (probaOf env t) < 3 ∧
    (∀ j < 3, (probaOf env t).getD j 0 ≤
      (probaOf env t).getD (argmaxL (probaOf env t)) 0) ∧
    (∀ j < argmaxL (probaOf env t), (probaOf env t).getD j 0 <
      (probaOf env t).getD (argmaxL (probaOf env t)) 0) ∧
    (recOf env t).confidence = round4 ((probaOf env t).getD (argmaxL (probaOf env t)) 0) ∧
    (recOf env t).probabilities.lookup (recOf env t).prediction =
      some (recOf env t).confidence ∧
    (∀ p ∈ (recOf env t).probabilities, p.2 ≤ (recOf env t).confidence) := by
  have hne : probaOf env t ≠ [] := by
    intro hc
    rw [hc] at h3
    cases h3
  obtain ⟨hlt, hle, hstr⟩ := argmaxL_spec _ hne
  rw [h3] at hlt
  refine ⟨recOf_prediction env t, hlt, ?_, hstr, recOf_confidence env t, ?_, ?_⟩
  · intro j hj
    exact hle j (by rw [h3]; exact hj)
  · rw [recOf_probabilities h3, recOf_prediction, recOf_confidence]
    revert hlt
    generalize argmaxL (probaOf env t) = I
    intro hlt
    interval_cases I <;> simp [labelName, LABEL_MAP, List.lookup]
  · intro p hp
    rw [recOf_probabilities h3] at hp
    rw [recOf_confidence]
    rcases List.mem_cons.mp hp with rfl | hp2
    · exact round4_mono (hle 0 (by rw [h3]; omega))
    · rcases List.mem_cons.mp hp2 with rfl | hp3
      · exact round4_mono (hle 1 (by rw [h3]; omega))
      · rw [List.mem_singleton] at hp3
        subst hp3
        exact round4_mono (hle 2 (by rw [h3]; omega))

theorem c5_witness :
    (probaOf envA "a").length = 3 ∧
    (recOf envA "a").prediction = labelName (argmaxL (probaOf envA "a")) ∧
    (recOf envA "a").probabilities.lookup (recOf envA "a").prediction =
      some (recOf envA "a").confidence := by
  have h := c5_argmax_prediction envA "a" rfl
  exact ⟨rfl, h.1, h.2.2.2.2.2.1⟩

/-- C6: the attribution list of every inference has length at most 8,
every entry is a `kwEntry` (score `round(|((pos - neg) * weight)|, 4)`,
hence non-negative) whose word contains no space (multi-word vocabulary
terms are skipped), and the list is the score-descending stable sort of
the entries — descending in score with ties in ascending vocabulary
index — truncated to the top 8. -/
theorem c6_attribution_sorted (env : Env) (t : String) :
    (recOf env t).key_words.length ≤ 8 ∧
    (∀ ws ∈ (recOf env t).key_words, 0 ≤ ws.score ∧ ' ' ∉ ws.word.data ∧
      ∃ i, ws = kwEntry env.vocab (featuresOf env t) env.coef i) ∧
    (recOf env t).key_words.Pairwise (fun a b => b.score ≤ a.score) ∧
    (recOf env t).key_words =
      ((sortDesc (keyWordsPre env.vocab (featuresOf env t) env.coef)).take 8).map Prod.snd ∧
    (sortDesc (keyWordsPre env.vocab (featuresOf env t) env.coef)).Pairwise ScoreIdxOrder := by
  rw [recOf_key_words]
  refine ⟨key_words_length _ _ _, ?_, key_words_sorted_scores _ _ _, rfl,
    key_words_sorted _ _ _⟩
  intro ws hws
  obtain ⟨i, rfl, hword⟩ := key_words_mem hws
  exact ⟨kwEntry_score_nonneg _ _ _ i, by rw [kwEntry_word]; exact hword, i, rfl⟩

/-- C7: under a 3-class model, `compare` succeeds on two valid texts with
a delta map over exactly the labels of `LABEL_MAP`, where each entry is
`round(recordA.probabilities[label] - recordB.probabilities[label], 4)`;
swapping the two texts (from any history state) yields the pointwise
negated delta, so the delta is independent of evaluation order. -/
theorem c7_compare_delta (env : Env) (ta tb : String)
    (log log2 : List PredictResponse)
    (ha : cleanL ta.data ≠ []) (hb : cleanL tb.data ≠ [])
    (h3a : (probaOf env ta).length = 3) (h3b : (probaOf env tb).length = 3) :
    (compareTexts env ta tb log).1 = .ok (recOf env ta, recOf env tb,
      [("negative", round4 (round4 ((probaOf env ta).getD 0 0) -
          round4 ((probaOf env tb).getD 0 0))),
       ("positive", round4 (round4 ((probaOf env ta).getD 1 0) -
          round4 ((probaOf env tb).getD 1 0))),
       ("neutral", round4 (round4 ((probaOf env ta).getD 2 0) -
          round4 ((probaOf env tb).getD 2 0)))]) ∧
    (compareTexts env tb ta log2).1 = .ok (recOf env tb, recOf env ta,
      [("negative", -round4 (round4 ((probaOf env ta).getD 0 0) -
          round4 ((probaOf env tb).getD 0 0))),
       ("positive", -round4 (round4 ((probaOf env ta).getD 1 0) -
          round4 ((probaOf env tb).getD 1 0))),
       ("neutral", -round4 (round4 ((probaOf env ta).getD 2 0) -
          round4 ((probaOf env tb).getD 2 0)))]) := by
  constructor
  · rw [compareTexts_ok ha hb]
    rw [recOf_probabilities h3a, recOf_probabilities h3b]
    simp [List.lookup]
  · rw [compareTexts_ok hb ha]
    rw [recOf_probabilities h3a, recOf_probabilities h3b]
    simp [List.lookup]
    exact ⟨round4_sub_neg _ _, round4_sub_neg _ _, round4_sub_neg _ _⟩

theorem c7_witness :
    cleanL ("good" : String).data ≠ [] ∧ cleanL ("bad" : String).data ≠ [] ∧
    (probaOf envA "good").length = 3 ∧
    (compareTexts envA "good" "bad" []).1 = .ok (recOf envA "good", recOf envA "bad",
      [("negative", round4 (round4 ((probaOf envA "good").getD 0 0) -
          round4 ((probaOf envA "bad").getD 0 0))),
       ("positive", round4 (round4 ((probaOf envA "good").getD 1 0) -
          round4 ((probaOf envA "bad").getD 1 0))),
       ("neutral", round4 (round4 ((probaOf envA "good").getD 2 0) -
          round4 ((probaOf envA "bad").getD 2 0)))]) := by
  refine ⟨by decide, by decide, rfl, ?_⟩
  exact (c7_compare_delta envA "good" "bad" [] [] (by decide) (by decide) rfl rfl).1

/-- C8: `get_stats` never fails: on the empty log it returns zero
totals, an empty distribution, average confidence `0.0` and no recent
records; on a non-empty log it returns the log length, the count of each
predicted label, the rounded mean confidence, and the most recent (up to)
ten records in reverse-chronological order (most recent first).  The
embedding is a pure function of the log, so the log is not mutated. -/
theorem c8_stats (log : List PredictResponse) :
    (get_stats [] = ⟨0, [], 0, []⟩) ∧
    (log ≠ [] →
      (get_stats log).total_predictions = log.length ∧
      (∀ lab cnt, (lab, cnt) ∈ (get_stats log).label_distribution ↔
        (lab ∈ log.map (fun p => p.prediction) ∧
          cnt = (log.map (fun p => p.prediction)).count lab)) ∧
      (get_stats log).avg_confidence =
        round4 ((log.map (fun p => p.confidence)).sum / log.length) ∧
      (get_stats log).recent_predictions = (log.drop (log.length - 10)).reverse ∧
      (get_stats log).recent_predictions.length = min 10 log.length ∧
      (get_stats log).recent_predictions.head? = log.getLast?) := by
  constructor
  · rfl
  · intro hne
    rw [get_stats, if_neg hne]
    refine ⟨rfl, ?_, rfl, rfl, ?_, ?_⟩
    · intro lab cnt
      constructor
      · intro hmem
        rw [List.mem_map] at hmem
        obtain ⟨x, hx, hxe⟩ := hmem
        obtain ⟨rfl, rfl⟩ := Prod.mk.injEq .. |>.mp hxe
        exact ⟨List.mem_dedup.mp hx, rfl⟩
      · rintro ⟨hmem, rfl⟩
        rw [List.mem_map]
        exact ⟨lab, List.mem_dedup.mpr hmem, rfl⟩
    · rw [List.length_reverse, List.length_drop]
      have := List.length_pos.mpr hne
      omega
    · rw [List.head?_reverse]
      have hlede : log.length - 10 ≤ log.length := by omega
      conv_rhs => rw [← List.take_append_drop (log.length - 10) log]
      rw [List.getLast?_append_of_ne_nil]
      intro hc
      have := congrArg List.length hc
      rw [List.length_drop] at this
      have hpos := List.length_pos.mpr hne
      simp at this
      omega

theorem c8_witness :
    (⟨"a", "a", "positive", 0, [], []⟩ : PredictResponse) ∈
      ([⟨"a", "a", "positive", 0, [], []⟩] : List PredictResponse) ∧
    (get_stats [(⟨"a", "a", "positive", 0, [], []⟩ : PredictResponse)]).total_predictions = 1 ∧
    (get_stats [(⟨"a", "a", "positive", 0, [], []⟩ : PredictResponse)]).recent_predictions.head? =
      ([(⟨"a", "a", "positive", 0, [], []⟩ : PredictResponse)]).getLast? := by
  have h := (c8_stats [⟨"a", "a", "positive", 0, [], []⟩]).2 (by decide)
  exact ⟨List.mem_singleton.mpr rfl, h.1, h.2.2.2.2.2⟩

/-- C9: `predict_batch` on 1–50 texts runs one inference per item in
input order: when every item cleans to non-empty text it returns the
records of the texts in order (same length, item `i` is the record of
text `i`); the first item whose cleaning is empty aborts the whole batch
with the empty-input error and no result list. -/
theorem c9_batch_order (env : Env) (texts : List String)
    (log : List PredictResponse) (hlo : 1 ≤ texts.length) (hhi : texts.length ≤ 50) :
    ((∀ t ∈ texts, cleanL t.data ≠ []) →
      (predict_batch env texts log).1 = .ok (texts.map (recOf env))) ∧
    (∀ pre bad rest, texts = pre ++ bad :: rest →
      (∀ t ∈ pre, cleanL t.data ≠ []) → cleanL bad.data = [] →
      (predict_batch env texts log).1 = .error .emptyInput) := by
  constructor
  · intro h
    rw [predict_batch_all_ok env texts log h]
  · rintro pre bad rest rfl h hbad
    rw [predict_batch_err env bad rest pre log h hbad]

theorem c9_witness :
    (1 ≤ (["good", "nice"] : List String).length ∧
      (["good", "nice"] : List String).length ≤ 50 ∧
      (predict_batch envA ["good", "nice"] []).1 =
        .ok (["good", "nice"].map (recOf envA))) ∧
    (1 ≤ (["good", "!!!"] : List String).length ∧
      (predict_batch envA ["good", "!!!"] []).1 = .error .emptyInput) := by
  refine ⟨⟨by decide, by decide, ?_⟩, ⟨by decide, ?_⟩⟩
  · exact (c9_batch_order envA ["good", "nice"] [] (by decide) (by decide)).1
      (by
        intro t ht
        rcases List.mem_cons.mp ht with rfl | ht2
        · decide
        · rw [List.mem_singleton] at ht2
          subst ht2
          decide)
  · exact (c9_batch_order envA ["good", "!!!"] [] (by decide) (by decide)).2
      ["good"] "!!!" [] rfl
      (by
        intro t ht
        rw [List.mem_singleton] at ht
        subst ht
        decide)
      (by decide)

/-- C10: when the batch aborts at the first failing item, the history log
keeps the records appended for the items before it — the batch is not
atomic with respect to the history; within capacity those records are all
present in the final log. -/
theorem c10_batch_not_atomic (env : Env) (pre : List String) (bad : String)
    (rest : List String) (log : List PredictResponse)
    (h : ∀ t ∈ pre, cleanL t.data ≠ []) (hbad : cleanL bad.data = []) :
    (predict_batch env (pre ++ bad :: rest) log).2 =
      (pre.map (recOf env)).foldl appendEvict log ∧
    (log.length + pre.length ≤ 1000 →
      (predict_batch env (pre ++ bad :: rest) log).2 = log ++ pre.map (recOf env) ∧
      ∀ r ∈ pre.map (recOf env), r ∈ (predict_batch env (pre ++ bad :: rest) log).2) := by
  have hb := predict_batch_err env bad rest pre log h hbad
  constructor
  · rw [hb]
  · intro hcap
    have hfull : (pre.map (recOf env)).foldl appendEvict log = log ++ pre.map (recOf env) := by
      rw [foldl_appendEvict _ _ (by omega)]
      rw [List.length_map]
      rw [Nat.sub_eq_zero_of_le (by omega), List.drop_zero]
    constructor
    · rw [hb]
      dsimp only
      exact hfull
    · intro r hr
      rw [hb]
      dsimp only
      rw [hfull]
      exact List.mem_append_right log hr

theorem c10_witness :
    cleanL ("!!!" : String).data = [] ∧
    (predict_batch envA ["good", "!!!"] []).2 = [recOf envA "good"] ∧
    recOf envA "good" ∈ (predict_batch envA ["good", "!!!"] []).2 := by
  have h := c10_batch_not_atomic envA ["good"] "!!!" [] []
    (by
      intro t ht
      rw [List.mem_singleton] at ht
      subst ht
      decide)
    (by decide)
  have h2 := h.2 (by decide)
  refine ⟨by decide, ?_, ?_⟩
  · have := h2.1
    simpa using this
  · exact h2.2 (recOf envA "good") (by simp)

end Sentiment
